import Mathlib

/-!
A shallow embedding of the pagerank repository (helpers.py and main.py) and
proofs about its specification claims.

Numeric values (numpy floats) are modelled by `ℚ`; matrices by Mathlib's
`Matrix (Fin m) (Fin n) ℚ`.  Text is modelled as `List Char`, and the
separators of `process_data` as single characters (the defaults in the code
are the single characters `'\n'` and `'\t'`); Python's `str.split(sep)` on a
single-character separator is `List.splitOn`.  Fallible code is modelled with
`Except` / `Option`.
-/

namespace PageRank

/-- `normalise` (main.py, lines 26-32): `matrix / matrix.sum(axis=0)` — every
entry is divided by the sum of its column. -/
def normalise {m n : Nat} (M : Matrix (Fin m) (Fin n) ℚ) : Matrix (Fin m) (Fin n) ℚ :=
  Matrix.of fun i j => M i j / ∑ k, M k j

/-- `prepare_data` (main.py, lines 35-43):
`proportion * data + (1 - proportion) * (1 / data.shape[0])`.
The square-shape assertion is carried by the type.  Python evaluates
`1 / data.shape[0]` eagerly with integer `shape[0]`, so a 0×0 matrix raises
`ZeroDivisionError`; this is modelled as `none`. -/
def prepare_data {n : Nat} (M : Matrix (Fin n) (Fin n) ℚ) (proportion : ℚ) :
    Option (Matrix (Fin n) (Fin n) ℚ) :=
  if n = 0 then none
  else some (Matrix.of fun i j => proportion * M i j + (1 - proportion) * (1 / (n : ℚ)))

/-- `rank` (main.py, lines 46-57): `for i in range(epochs): data = data.dot(data)` —
the matrix is replaced by its product with itself, `epochs` times.  The
square-shape assertion is carried by the type. -/
def rank {n : Nat} (M : Matrix (Fin n) (Fin n) ℚ) : Nat → Matrix (Fin n) (Fin n) ℚ
  | 0 => M
  | e + 1 => rank M e * rank M e

/-- `append_labels` (main.py, lines 69-76): `zip(labels, results)`. -/
def append_labels (results : List ℚ) (labels : List (List Char)) : List (List Char × ℚ) :=
  labels.zip results

/-- `sort_result` (main.py, lines 79-87): Python
`sorted(results, key=key, reverse=reverse)`, a stable sort — by `key`
ascending, or by `key` descending when `reverse` is true (the default;
the default key is the second component). -/
def sort_result (results : List (List Char × ℚ)) (reverse : Bool)
    (key : List Char × ℚ → ℚ) : List (List Char × ℚ) :=
  results.mergeSort fun a b => if reverse then decide (key b ≤ key a) else decide (key a ≤ key b)

/-- C2: `rank M epochs` is `M` raised to the power `2 ^ epochs`. -/
theorem rank_eq_pow_two_pow {n : Nat} (M : Matrix (Fin n) (Fin n) ℚ) (epochs : Nat) :
    rank M epochs = M ^ (2 ^ epochs) := by
  induction epochs with
  | zero => simp [rank]
  | succ e ih =>
    rw [rank, ih, ← pow_add]
    congr 1
    rw [pow_succ, Nat.mul_two]

/-- C10: with zero epochs the squaring loop of `rank` is the identity. -/
theorem rank_zero_epochs {n : Nat} (M : Matrix (Fin n) (Fin n) ℚ) : rank M 0 = M := rfl

/-- C4: when no column of `M` sums to zero, every column of `normalise M` sums
to 1, and every entry of `normalise M` is the corresponding entry of `M`
divided by the sum of its column. -/
theorem normalise_column_sums {m n : Nat} (M : Matrix (Fin m) (Fin n) ℚ)
    (h : ∀ j, (∑ i, M i j) ≠ 0) :
    (∀ j, (∑ i, normalise M i j) = 1) ∧
    (∀ i j, normalise M i j = M i j / ∑ k, M k j) := by
  refine ⟨fun j => ?_, fun i j => rfl⟩
  simp only [normalise, Matrix.of_apply]
  rw [← Finset.sum_div, div_self (h j)]

theorem normalise_column_sums_witness :
    (∀ j, (∑ i, (Matrix.of fun _ _ => (2 : ℚ) : Matrix (Fin 1) (Fin 1) ℚ) i j) ≠ 0) ∧
    (∀ j, (∑ i, normalise (Matrix.of fun _ _ => (2 : ℚ) : Matrix (Fin 1) (Fin 1) ℚ) i j) = 1) := by
  have h : ∀ j, (∑ i, (Matrix.of fun _ _ => (2 : ℚ) : Matrix (Fin 1) (Fin 1) ℚ) i j) ≠ 0 := by
    intro j
    simp [Matrix.of_apply]
  exact ⟨h, (normalise_column_sums _ h).1⟩

/-- C5 counterexample: on the empty (0×0) square matrix, `prepare_data M 1`
fails (Python raises `ZeroDivisionError` evaluating `1 / data.shape[0]`),
so it does not return `M`. -/
theorem prepare_data_empty_matrix_fails :
    prepare_data (0 : Matrix (Fin 0) (Fin 0) ℚ) 1 ≠ some 0 := by
  simp [prepare_data]

/-- C5 amended: for every square matrix with at least one row,
`prepare_data M 1 = M` and every entry of `prepare_data M 0` is `1/N`. -/
theorem prepare_data_proportion_bounds {n : Nat} (M : Matrix (Fin n) (Fin n) ℚ)
    (h : 0 < n) :
    prepare_data M 1 = some M ∧
    prepare_data M 0 = some (Matrix.of fun _ _ => 1 / (n : ℚ)) := by
  have hn : ¬(n = 0) := Nat.pos_iff_ne_zero.mp h
  constructor
  · rw [prepare_data, if_neg hn]
    congr 1
    ext i j
    simp
  · rw [prepare_data, if_neg hn]
    congr 1
    ext i j
    simp

theorem prepare_data_proportion_bounds_witness :
    0 < 1 ∧
    prepare_data (Matrix.of fun _ _ => (5 : ℚ) : Matrix (Fin 1) (Fin 1) ℚ) 1
      = some (Matrix.of fun _ _ => (5 : ℚ)) :=
  ⟨Nat.one_pos, (prepare_data_proportion_bounds (Matrix.of fun _ _ => (5 : ℚ)) Nat.one_pos).1⟩

/-- C8: `append_labels` pairs scores and labels positionally and its output
length is the minimum of the two input lengths (silent truncation, no error). -/
theorem append_labels_pairs_truncates (results : List ℚ) (labels : List (List Char)) :
    (append_labels results labels).length = min labels.length results.length ∧
    ∀ (i : Nat) (hl : i < labels.length) (hr : i < results.length),
      (append_labels results labels)[i]? = some (labels[i], results[i]) := by
  refine ⟨List.length_zip _ _, fun i hl hr => ?_⟩
  have hi : i < (labels.zip results).length := by
    rw [List.length_zip]
    exact lt_min hl hr
  rw [append_labels, List.getElem?_eq_getElem hi, List.getElem_zip]

theorem append_labels_pairs_truncates_witness :
    (0 : Nat) < 2 ∧ (0 : Nat) < 1 ∧
    (append_labels [(3 : ℚ)] [['a'], ['b']])[0]? = some (['a'], (3 : ℚ)) :=
  ⟨Nat.zero_lt_two, Nat.one_pos,
    (append_labels_pairs_truncates [(3 : ℚ)] [['a'], ['b']]).2 0 Nat.zero_lt_two Nat.one_pos⟩

/-!
The table parser (helpers.py, `process_data`).
-/

/-- The two assertion failures of `process_data` (helpers.py, lines 45 and 71);
the spec names them `ConfigurationError` and `MalformedTableError`. -/
inductive PError where
  | configurationError : PError
  | malformedTable (row : Nat) (cols : Nat) : PError
deriving DecidableEq

/-- Python `str.strip()`: remove leading and trailing whitespace. -/
def strip (s : List Char) : List Char :=
  ((s.dropWhile Char.isWhitespace).reverse.dropWhile Char.isWhitespace).reverse

/-- One data cell (helpers.py, lines 59-67): an empty cell keeps the value 0,
and a conversion failure (`ValueError`, modelled as `none`) is caught and also
keeps the value 0. -/
def cellValue (convert : List Char → Option Int) (c : List Char) : Int :=
  if c.isEmpty then 0 else (convert c).getD 0

/-- The data cells of one row (helpers.py, lines 52-57): split the row on the
column separator; when labels are enabled the first cell is removed
(`cells.pop(0)`).  `splitOn` never returns `[]`, so the pop never fails. -/
def dataCells (hasLabels : Bool) (colSep : Char) (r : List Char) : List (List Char) :=
  if hasLabels then (r.splitOn colSep).tail else r.splitOn colSep

/-- The label of one row (helpers.py, lines 54-57): the first cell, stripped,
when labels are enabled; the empty string otherwise. -/
def rowLabel (hasLabels : Bool) (colSep : Char) (r : List Char) : List Char :=
  if hasLabels then strip (r.splitOn colSep).headI else []

/-- `process_data` (helpers.py, lines 29-73): assert the separators differ,
split the text into rows and each row into converted cells plus a label, then
assert (in row order) that every row has at least as many data cells as there
are rows.  `np.array` on the well-formed result is the identity on the
row-major table. -/
def process_data (dataString : List Char) (hasLabels : Bool)
    (convert : List Char → Option Int) (lineSep colSep : Char) :
    Except PError (List (List Int) × List (List Char)) :=
  if lineSep = colSep then .error .configurationError
  else
    let rows := dataString.splitOn lineSep
    let table := rows.map fun r => (dataCells hasLabels colSep r).map (cellValue convert)
    let labels := rows.map (rowLabel hasLabels colSep)
    let size := table.length
    match (List.range size).find? (fun i => decide ((table.getD i []).length < size)) with
    | some i => .error (.malformedTable i (table.getD i []).length)
    | none => .ok (table, labels)

/-- Decimal digits to a natural number, most significant first. -/
def digitsToNat (ds : List Char) : Nat :=
  ds.foldl (fun a c => 10 * a + (c.toNat - 48)) 0

/-- Python `int(str)` (the default `convert_data` of helpers.py, line 32):
optional surrounding whitespace, an optional sign, then decimal digits;
anything else raises `ValueError` (`none`). -/
def pyInt (s : List Char) : Option Int :=
  match strip s with
  | [] => none
  | '+' :: ds => if ds ≠ [] ∧ ds.all Char.isDigit then some (digitsToNat ds) else none
  | '-' :: ds => if ds ≠ [] ∧ ds.all Char.isDigit then some (-(digitsToNat ds : Int)) else none
  | ds => if ds.all Char.isDigit then some (digitsToNat ds) else none

instance {ε α : Type} [DecidableEq ε] [DecidableEq α] : DecidableEq (Except ε α) := fun a b =>
  match a, b with
  | .error e, .error f =>
    if h : e = f then .isTrue (by rw [h]) else .isFalse fun hh => h (Except.error.inj hh)
  | .ok x, .ok y =>
    if h : x = y then .isTrue (by rw [h]) else .isFalse fun hh => h (Except.ok.inj hh)
  | .error _, .ok _ => .isFalse fun hh => Except.noConfusion hh
  | .ok _, .error _ => .isFalse fun hh => Except.noConfusion hh

/-- `getD` through `map`, inside the bound. -/
theorem getD_map_of_lt {α β : Type} (f : α → β) (l : List α) (i : Nat) (d : β) (d' : α)
    (h : i < l.length) : (l.map f).getD i d = f (l.getD i d') := by
  rw [List.getD_eq_getElem?_getD, List.getD_eq_getElem?_getD, List.getElem?_map,
    List.getElem?_eq_getElem h]
  simp

/-- C6: calling `process_data` with equal line and column separators fails with
`ConfigurationError`; with distinct separators that failure never occurs. -/
theorem process_data_separator_check (s : List Char) (hasLabels : Bool)
    (convert : List Char → Option Int) (lineSep colSep : Char) :
    (lineSep = colSep →
      process_data s hasLabels convert lineSep colSep = .error .configurationError) ∧
    (lineSep ≠ colSep →
      process_data s hasLabels convert lineSep colSep ≠ .error .configurationError) := by
  constructor
  · intro h
    simp [process_data, h]
  · intro h
    rw [process_data, if_neg h]
    dsimp only
    split <;> simp

theorem process_data_separator_check_witness :
    process_data [] true pyInt '\t' '\t' = .error .configurationError ∧
    process_data [] true pyInt '\n' '\t' ≠ .error .configurationError :=
  ⟨(process_data_separator_check [] true pyInt '\t' '\t').1 rfl,
   (process_data_separator_check [] true pyInt '\n' '\t').2 (by decide)⟩

/-- C1 counterexample: the square check of `process_data` only bounds each
row's data-cell count from below, so the one-line input `a\t1\t2` (one row,
two data cells) passes the check and parses to the 1×2 table `[[1, 2]]`,
which is not square: its row count differs from its row length. -/
theorem process_data_returns_non_square :
    process_data ['a', '\t', '1', '\t', '2'] true pyInt '\n' '\t' = .ok ([[1, 2]], [['a']]) ∧
    ([[1, 2]] : List (List Int)).length ≠ ([1, 2] : List Int).length := by
  exact ⟨by decide, by decide⟩

/-- C1 amended: with distinct separators, `process_data` either returns a
table with one row per input line in which every row has at least as many data
cells as there are rows (a row may have more, so the table need not be
square), or, when some row has fewer data cells than the row count, fails with
`MalformedTableError` naming an offending row index and that row's data-cell
count. -/
theorem process_data_row_lower_bound (s : List Char) (hasLabels : Bool)
    (convert : List Char → Option Int) (lineSep colSep : Char) (hsep : lineSep ≠ colSep) :
    (∀ table labels,
        process_data s hasLabels convert lineSep colSep = .ok (table, labels) →
        table.length = (s.splitOn lineSep).length ∧
        ∀ row ∈ table, table.length ≤ row.length) ∧
    ((∃ i, i < (s.splitOn lineSep).length ∧
        (dataCells hasLabels colSep ((s.splitOn lineSep).getD i [])).length
          < (s.splitOn lineSep).length) →
      ∃ j, process_data s hasLabels convert lineSep colSep
            = .error (.malformedTable j
                (dataCells hasLabels colSep ((s.splitOn lineSep).getD j [])).length) ∧
          (dataCells hasLabels colSep ((s.splitOn lineSep).getD j [])).length
            < (s.splitOn lineSep).length) := by
  have hlen : ∀ i, i < (s.splitOn lineSep).length →
      (((s.splitOn lineSep).map
          fun r => (dataCells hasLabels colSep r).map (cellValue convert)).getD i []).length
        = (dataCells hasLabels colSep ((s.splitOn lineSep).getD i [])).length := by
    intro i hi
    rw [getD_map_of_lt _ _ _ _ [] hi, List.length_map]
  have hN : ((s.splitOn lineSep).map
      fun r => (dataCells hasLabels colSep r).map (cellValue convert)).length
        = (s.splitOn lineSep).length := List.length_map _ _
  constructor
  · intro table labels hok
    rw [process_data, if_neg hsep] at hok
    dsimp only at hok
    split at hok
    · exact absurd hok (by simp)
    · rename_i hfind
      obtain ⟨htab, hlab⟩ := Prod.mk.injEq .. ▸ Except.ok.inj hok
      subst htab
      refine ⟨hN, fun row hrow => ?_⟩
      obtain ⟨i, hi, hrow⟩ := List.mem_iff_getElem.mp hrow
      have hmem : i ∈ List.range ((s.splitOn lineSep).map
          fun r => (dataCells hasLabels colSep r).map (cellValue convert)).length :=
        List.mem_range.mpr hi
      have := List.find?_eq_none.mp hfind i hmem
      simp only [decide_eq_true_eq, Nat.not_lt] at this
      calc _ ≤ (((s.splitOn lineSep).map
            fun r => (dataCells hasLabels colSep r).map (cellValue convert)).getD i []).length :=
          this
        _ = row.length := by
          rw [List.getD_eq_getElem?_getD, List.getElem?_eq_getElem hi, Option.getD_some, hrow]
  · rintro ⟨i, hi, hlt⟩
    have hsome : (((List.range ((s.splitOn lineSep).map
        fun r => (dataCells hasLabels colSep r).map (cellValue convert)).length)).find?
          fun j => decide ((((s.splitOn lineSep).map
            fun r => (dataCells hasLabels colSep r).map (cellValue convert)).getD j []).length
              < ((s.splitOn lineSep).map
                fun r => (dataCells hasLabels colSep r).map (cellValue convert)).length)).isSome := by
      refine List.find?_isSome.mpr ⟨i, List.mem_range.mpr (hN ▸ hi), ?_⟩
      rw [decide_eq_true_eq, hN, hlen i hi]
      exact hlt
    obtain ⟨j, hj⟩ := Option.isSome_iff_exists.mp hsome
    have hjmem : j < (s.splitOn lineSep).length := hN ▸ List.mem_range.mp (List.mem_of_find?_eq_some hj)
    have hjp := List.find?_some hj
    rw [decide_eq_true_eq, hN, hlen j hjmem] at hjp
    refine ⟨j, ?_, hjp⟩
    rw [process_data, if_neg hsep]
    dsimp only
    rw [hj]
    dsimp only
    rw [hlen j hjmem]

theorem process_data_row_lower_bound_witness :
    '\n' ≠ '\t' ∧
    process_data ['a', '\t', '1', '\t', '2', '\n', 'b', '\t', '3', '\t', '4'] true pyInt '\n' '\t'
      = .ok ([[1, 2], [3, 4]], [['a'], ['b']]) ∧
    ([[1, 2], [3, 4]] : List (List Int)).length
      = (['a', '\t', '1', '\t', '2', '\n', 'b', '\t', '3', '\t', '4'].splitOn '\n').length ∧
    ∀ row ∈ ([[1, 2], [3, 4]] : List (List Int)),
      ([[1, 2], [3, 4]] : List (List Int)).length ≤ row.length := by
  have hsep : ('\n' : Char) ≠ '\t' := by decide
  have hok : process_data ['a', '\t', '1', '\t', '2', '\n', 'b', '\t', '3', '\t', '4'] true pyInt
      '\n' '\t' = .ok ([[1, 2], [3, 4]], [['a'], ['b']]) := by decide
  have h := (process_data_row_lower_bound
    ['a', '\t', '1', '\t', '2', '\n', 'b', '\t', '3', '\t', '4'] true pyInt
    '\n' '\t' hsep).1 [[1, 2], [3, 4]] [['a'], ['b']] hok
  exact ⟨hsep, hok, h.1, h.2⟩

/-- Changing the conversion function cannot change a failure of
`process_data`: the assertions only look at cell counts, never at values. -/
theorem process_data_error_indep (s : List Char) (hasLabels : Bool)
    (convert convert' : List Char → Option Int) (lineSep colSep : Char) (e : PError)
    (h : process_data s hasLabels convert lineSep colSep = .error e) :
    process_data s hasLabels convert' lineSep colSep = .error e := by
  by_cases hsep : lineSep = colSep
  · rw [process_data, if_pos hsep] at h ⊢
    exact h
  · rw [process_data, if_neg hsep] at h ⊢
    dsimp only at h ⊢
    set Tc := (s.splitOn lineSep).map
      (fun r => (dataCells hasLabels colSep r).map (cellValue convert)) with hTc
    set Tc' := (s.splitOn lineSep).map
      (fun r => (dataCells hasLabels colSep r).map (cellValue convert')) with hTc'
    have hN : Tc'.length = Tc.length := by
      rw [hTc, hTc', List.length_map, List.length_map]
    have hlen : ∀ i : Nat, (Tc'.getD i []).length = (Tc.getD i []).length := by
      intro i
      by_cases hi : i < (s.splitOn lineSep).length
      · rw [hTc, hTc', getD_map_of_lt _ _ _ _ [] hi, getD_map_of_lt _ _ _ _ [] hi,
          List.length_map, List.length_map]
      · have h1 : Tc'[i]? = none := by
          rw [List.getElem?_eq_none_iff, hTc', List.length_map]
          omega
        have h2 : Tc[i]? = none := by
          rw [List.getElem?_eq_none_iff, hTc, List.length_map]
          omega
        rw [List.getD_eq_getElem?_getD, List.getD_eq_getElem?_getD, h1, h2]
    have hpred : (fun i => decide ((Tc'.getD i []).length < Tc'.length))
        = fun i => decide ((Tc.getD i []).length < Tc.length) := by
      funext i
      rw [hlen i, hN]
    rw [hpred, hN]
    split at h
    · rename_i i heq
      rw [hlen i]
      exact h
    · exact absurd h (by simp)

/-- C7: the success or failure of `process_data` never depends on the
conversion function (a conversion failure is swallowed, not propagated to the
caller), and every data cell that is empty or on which the conversion function
fails becomes the entry 0 of the resulting table. -/
theorem process_data_swallows_conversion (s : List Char) (hasLabels : Bool)
    (convert convert' : List Char → Option Int) (lineSep colSep : Char) :
    (∀ e : PError, process_data s hasLabels convert lineSep colSep = .error e ↔
        process_data s hasLabels convert' lineSep colSep = .error e) ∧
    (∀ table labels, process_data s hasLabels convert lineSep colSep = .ok (table, labels) →
      ∀ i j, i < (s.splitOn lineSep).length →
        j < (dataCells hasLabels colSep ((s.splitOn lineSep).getD i [])).length →
        ((dataCells hasLabels colSep ((s.splitOn lineSep).getD i [])).getD j [] = [] ∨
          convert ((dataCells hasLabels colSep ((s.splitOn lineSep).getD i [])).getD j []) = none) →
        (table.getD i []).getD j 0 = 0) := by
  constructor
  · intro e
    exact ⟨process_data_error_indep s hasLabels convert convert' lineSep colSep e,
      process_data_error_indep s hasLabels convert' convert lineSep colSep e⟩
  · intro table labels hok i j hi hj hcell
    by_cases hsep : lineSep = colSep
    · rw [process_data, if_pos hsep] at hok
      exact absurd hok (by simp)
    · rw [process_data, if_neg hsep] at hok
      dsimp only at hok
      split at hok
      · exact absurd hok (by simp)
      · have htab := (Prod.mk.injEq .. ▸ Except.ok.inj hok).1
        subst htab
        rw [getD_map_of_lt _ _ _ _ [] hi, getD_map_of_lt _ _ _ _ [] hj]
        rcases hcell with hcell | hcell
        · rw [cellValue, hcell]
          simp
        · rw [cellValue, hcell]
          simp only [Option.getD_none, ite_self]

theorem process_data_swallows_conversion_witness :
    process_data ['a', '\t', '\t', 'x', '\n', 'b', '\t', '1', '\t', '2'] true pyInt '\n' '\t'
      = .ok ([[0, 0], [1, 2]], [['a'], ['b']]) ∧
    (([[0, 0], [1, 2]] : List (List Int)).getD 0 []).getD 0 0 = 0 ∧
    (([[0, 0], [1, 2]] : List (List Int)).getD 0 []).getD 1 0 = 0 := by
  have hok : process_data ['a', '\t', '\t', 'x', '\n', 'b', '\t', '1', '\t', '2'] true pyInt
      '\n' '\t' = .ok ([[0, 0], [1, 2]], [['a'], ['b']]) := by decide
  refine ⟨hok, ?_, ?_⟩
  · exact (process_data_swallows_conversion
      ['a', '\t', '\t', 'x', '\n', 'b', '\t', '1', '\t', '2'] true pyInt pyInt '\n' '\t').2
      [[0, 0], [1, 2]] [['a'], ['b']] hok 0 0 (by decide) (by decide) (Or.inl (by decide))
  · exact (process_data_swallows_conversion
      ['a', '\t', '\t', 'x', '\n', 'b', '\t', '1', '\t', '2'] true pyInt pyInt '\n' '\t').2
      [[0, 0], [1, 2]] [['a'], ['b']] hok 0 1 (by decide) (by decide) (Or.inr (by decide))

/-- C9: with the code's default arguments (descending, key = score, i.e. the
second component) `sort_result` returns a permutation of its input in
non-increasing score order and is stable (the pairs holding any fixed score
keep their input order); with `reverse := false` on pairwise-distinct scores
it returns exactly the reversed, ascending order. -/
theorem sort_result_order (l : List (List Char × ℚ)) :
    ((sort_result l true fun x => x.2).Pairwise fun a b => b.2 ≤ a.2) ∧
    (sort_result l true fun x => x.2).Perm l ∧
    (∀ q : ℚ, (sort_result l true fun x => x.2).filter (fun x => decide (x.2 = q))
        = l.filter fun x => decide (x.2 = q)) ∧
    ((l.Pairwise fun a b => a.2 ≠ b.2) →
      sort_result l false (fun x => x.2) = (sort_result l true fun x => x.2).reverse) := by
  have h1 : (sort_result l true fun x => x.2)
      = l.mergeSort fun a b => decide (b.2 ≤ a.2) := by
    simp [sort_result]
  have h2 : sort_result l false (fun x => x.2)
      = l.mergeSort fun a b => decide (a.2 ≤ b.2) := by
    simp [sort_result]
  have htransD : ∀ a b c : List Char × ℚ,
      decide (b.2 ≤ a.2) = true → decide (c.2 ≤ b.2) = true → decide (c.2 ≤ a.2) = true :=
    fun a b c hab hbc =>
      decide_eq_true (le_trans (of_decide_eq_true hbc) (of_decide_eq_true hab))
  have htotD : ∀ a b : List Char × ℚ,
      (decide (b.2 ≤ a.2) || decide (a.2 ≤ b.2)) = true := by
    intro a b
    rw [Bool.or_eq_true, decide_eq_true_eq, decide_eq_true_eq]
    exact le_total b.2 a.2
  have htransA : ∀ a b c : List Char × ℚ,
      decide (a.2 ≤ b.2) = true → decide (b.2 ≤ c.2) = true → decide (a.2 ≤ c.2) = true :=
    fun a b c hab hbc =>
      decide_eq_true (le_trans (of_decide_eq_true hab) (of_decide_eq_true hbc))
  have htotA : ∀ a b : List Char × ℚ,
      (decide (a.2 ≤ b.2) || decide (b.2 ≤ a.2)) = true := by
    intro a b
    rw [Bool.or_eq_true, decide_eq_true_eq, decide_eq_true_eq]
    exact le_total a.2 b.2
  rw [h1, h2]
  refine ⟨?_, List.mergeSort_perm l _, fun q => ?_, fun hdist => ?_⟩
  · exact (List.sorted_mergeSort htransD htotD l).imp of_decide_eq_true
  · have hpair : (l.filter fun x => decide (x.2 = q)).Pairwise
        fun a b => decide (b.2 ≤ a.2) := by
      refine List.pairwise_of_forall_mem_list fun a ha b hb => ?_
      have ha' := of_decide_eq_true (List.mem_filter.mp ha).2
      have hb' := of_decide_eq_true (List.mem_filter.mp hb).2
      exact decide_eq_true (le_of_eq (hb'.trans ha'.symm))
    have hsub := List.sublist_mergeSort htransD htotD hpair (List.filter_sublist l)
    have hself : (l.filter fun x => decide (x.2 = q)).filter (fun x => decide (x.2 = q))
        = l.filter fun x => decide (x.2 = q) :=
      List.filter_eq_self.mpr fun a ha => (List.mem_filter.mp ha).2
    have hsub2 := hself ▸ hsub.filter (fun x : List Char × ℚ => decide (x.2 = q))
    have hperm := (List.mergeSort_perm l fun a b => decide (b.2 ≤ a.2)).filter
      fun x => decide (x.2 = q)
    exact (hsub2.eq_of_length hperm.length_eq.symm).symm
  · have hA := (List.sorted_mergeSort htransA htotA l).imp
      (of_decide_eq_true : ∀ {a b : List Char × ℚ}, _ → a.2 ≤ b.2)
    have hB := (List.sorted_mergeSort htransD htotD l).imp
      (of_decide_eq_true : ∀ {a b : List Char × ℚ}, _ → b.2 ≤ a.2)
    have hAperm := List.mergeSort_perm l fun a b => decide (a.2 ≤ b.2)
    have hBperm := List.mergeSort_perm l fun a b => decide (b.2 ≤ a.2)
    have hsymm : ∀ {x y : List Char × ℚ}, x.2 ≠ y.2 → y.2 ≠ x.2 := fun h => h.symm
    have hAdist := (hAperm.pairwise_iff hsymm).mpr hdist
    have hBdist := (hBperm.pairwise_iff hsymm).mpr hdist
    have hAlt : (l.mergeSort fun a b => decide (a.2 ≤ b.2)).Pairwise
        fun a b => a.2 < b.2 :=
      (hA.and hAdist).imp fun h => lt_of_le_of_ne h.1 h.2
    have hBlt : (l.mergeSort fun a b => decide (b.2 ≤ a.2)).Pairwise
        fun a b => b.2 < a.2 :=
      (hB.and hBdist).imp fun h => lt_of_le_of_ne h.1 (Ne.symm h.2)
    have hBrev : ((l.mergeSort fun a b => decide (b.2 ≤ a.2)).reverse).Pairwise
        fun a b => a.2 < b.2 := List.pairwise_reverse.mpr hBlt
    have hperm : (l.mergeSort fun a b => decide (a.2 ≤ b.2)).Perm
        ((l.mergeSort fun a b => decide (b.2 ≤ a.2)).reverse) :=
      hAperm.trans (((l.mergeSort fun a b => decide (b.2 ≤ a.2)).reverse_perm).trans
        hBperm).symm
    haveI : IsAntisymm (List Char × ℚ) fun a b => a.2 < b.2 :=
      ⟨fun _ _ hab hba => (lt_asymm hab hba).elim⟩
    exact List.eq_of_perm_of_sorted hperm hAlt hBrev

theorem sort_result_order_witness :
    (([(['a'], (1 : ℚ)), (['b'], 2)] : List (List Char × ℚ)).Pairwise
      fun a b => a.2 ≠ b.2) ∧
    sort_result [(['a'], (1 : ℚ)), (['b'], 2)] false (fun x => x.2)
      = (sort_result [(['a'], (1 : ℚ)), (['b'], 2)] true fun x => x.2).reverse := by
  have hd : ([(['a'], (1 : ℚ)), (['b'], 2)] : List (List Char × ℚ)).Pairwise
      fun a b => a.2 ≠ b.2 := by
    refine List.pairwise_cons.mpr ⟨?_, List.pairwise_singleton _ _⟩
    intro b hb
    rw [List.mem_singleton.mp hb]
    norm_num
  exact ⟨hd, (sort_result_order [(['a'], (1 : ℚ)), (['b'], 2)]).2.2.2 hd⟩

/-!
Serialization for the round-trip property.
-/

/-- Decimal rendering of an integer, most significant digit first. -/
def intRender (n : Int) : List Char :=
  if n < 0 then '-' :: Nat.toDigits 10 n.natAbs else Nat.toDigits 10 n.toNat

/-- Modelled from the spec: the repository has no serializer, so the
"serializing M and L to text" of §8 is modelled from the spec's words and the
input format of §6 — each row is its label followed by its rendered entries,
joined by the column separator, and the rows are joined by the line
separator. -/
def serialize (render : Int → List Char) (lineSep colSep : Char)
    (table : List (List Int)) (labels : List (List Char)) : List Char :=
  [lineSep].intercalate ((labels.zip table).map
    fun lr => [colSep].intercalate (lr.1 :: lr.2.map render))

/-- `dataCells` with labels enabled drops the first cell. -/
theorem dataCells_true (colSep : Char) (r : List Char) :
    dataCells true colSep r = (r.splitOn colSep).tail := rfl

/-- `rowLabel` with labels enabled strips the first cell. -/
theorem rowLabel_true (colSep : Char) (r : List Char) :
    rowLabel true colSep r = strip (r.splitOn colSep).headI := rfl

/-- `intercalate` with a one-element separator over at least two pieces. -/
theorem intercalate_single_cons₂ {α : Type} (x : α) (a b : List α) (t : List (List α)) :
    [x].intercalate (a :: b :: t) = a ++ x :: [x].intercalate (b :: t) := by
  simp [List.intercalate, List.intersperse_cons₂]

/-- A member of an intercalation is the separator or lies in one of the
pieces. -/
theorem mem_intercalate_single {α : Type} {x c : α} {ps : List (List α)}
    (h : c ∈ [x].intercalate ps) : c = x ∨ ∃ p ∈ ps, c ∈ p := by
  induction ps with
  | nil => simp [List.intercalate] at h
  | cons a t ih =>
    cases t with
    | nil =>
      simp only [List.intercalate, List.intersperse_single, List.flatten,
        List.append_nil] at h
      exact Or.inr ⟨a, List.mem_singleton_self a, h⟩
    | cons b t' =>
      rw [intercalate_single_cons₂] at h
      rcases List.mem_append.mp h with h | h
      · exact Or.inr ⟨a, List.mem_cons_self a _, h⟩
      · rcases List.mem_cons.mp h with h | h
        · exact Or.inl h
        · rcases ih h with h | ⟨p, hp, hcp⟩
          · exact Or.inl h
          · exact Or.inr ⟨p, List.mem_cons_of_mem a hp, hcp⟩

/-- C3 counterexample: with the default separators, the single label `x\ty`
(which contains the column separator) and the 1×1 matrix `[[0]]` do not
round-trip: the parser reads back the table `[[0, 0]]` with label `x`. -/
theorem serialize_roundtrip_fails_on_separator_in_label :
    process_data
        (serialize intRender '\n' '\t' [[0]] [['x', '\t', 'y']]) true pyInt '\n' '\t'
      = .ok ([[0, 0]], [['x']]) ∧
    (([[0, 0]], [['x']]) : List (List Int) × List (List Char))
      ≠ ([[0]], [['x', '\t', 'y']]) := by
  exact ⟨by decide, by decide⟩

/-- C3 amended: round-trip holds for a nonempty square table and sane data:
distinct (single-character) separators, labels that contain neither separator
and carry no surrounding whitespace, and entries whose rendered text is
nonempty, contains neither separator, and is mapped back by the conversion
function.  Then parsing the serialized text with labels enabled returns
exactly the table and the labels. -/
theorem process_data_serialize_roundtrip
    (render : Int → List Char) (convert : List Char → Option Int) (lineSep colSep : Char)
    (table : List (List Int)) (labels : List (List Char))
    (hsep : lineSep ≠ colSep)
    (hpos : table ≠ [])
    (hlen : labels.length = table.length)
    (hsq : ∀ row ∈ table, row.length = table.length)
    (hlab : ∀ l ∈ labels, lineSep ∉ l ∧ colSep ∉ l ∧ strip l = l)
    (hent : ∀ row ∈ table, ∀ e ∈ row,
        lineSep ∉ render e ∧ colSep ∉ render e ∧ render e ≠ [] ∧
        convert (render e) = some e) :
    process_data (serialize render lineSep colSep table labels) true convert lineSep colSep
      = .ok (table, labels) := by
  have hrow_splits : ∀ lr ∈ labels.zip table,
      ([colSep].intercalate (lr.1 :: lr.2.map render)).splitOn colSep
        = lr.1 :: lr.2.map render := by
    rintro ⟨l, row⟩ hlr
    obtain ⟨hl, hrow⟩ := List.of_mem_zip hlr
    refine List.splitOn_intercalate _ colSep ?_ (List.cons_ne_nil _ _)
    intro p hp
    rcases List.mem_cons.mp hp with hp | hp
    · exact hp ▸ (hlab l hl).2.1
    · obtain ⟨e, he, hpe⟩ := List.mem_map.mp hp
      exact hpe ▸ (hent row hrow e he).2.1
  have hsplit : (serialize render lineSep colSep table labels).splitOn lineSep
      = (labels.zip table).map fun lr => [colSep].intercalate (lr.1 :: lr.2.map render) := by
    refine List.splitOn_intercalate _ lineSep ?_ ?_
    · intro p hp
      obtain ⟨lr, hlr, hplr⟩ := List.mem_map.mp hp
      obtain ⟨hl, hrow⟩ := List.of_mem_zip hlr
      intro hmem
      rcases mem_intercalate_single (hplr ▸ hmem) with h | ⟨piece, hpiece, hmem2⟩
      · exact hsep h
      · rcases List.mem_cons.mp hpiece with hpc | hpc
        · exact (hlab lr.1 hl).1 (hpc ▸ hmem2)
        · obtain ⟨e, he, hpe⟩ := List.mem_map.mp hpc
          exact (hent lr.2 hrow e he).1 (hpe ▸ hmem2)
    · intro hnil
      apply hpos
      have := List.map_eq_nil_iff.mp hnil
      have hzlen : (labels.zip table).length = table.length := by
        rw [List.length_zip, hlen, Nat.min_self]
      rw [this] at hzlen
      exact List.length_eq_zero.mp hzlen.symm
  have htable : ((labels.zip table).map
        fun lr => [colSep].intercalate (lr.1 :: lr.2.map render)).map
          (fun r => (dataCells true colSep r).map (cellValue convert)) = table := by
    rw [List.map_map]
    have hmap : ∀ lr ∈ labels.zip table,
        ((dataCells true colSep ∘ fun lr : List Char × List Int =>
            [colSep].intercalate (lr.1 :: lr.2.map render)) lr).map (cellValue convert)
          = lr.2 := by
      rintro ⟨l, row⟩ hlr
      obtain ⟨hl, hrow⟩ := List.of_mem_zip hlr
      have hcells := hrow_splits (l, row) hlr
      simp only [Function.comp_apply, dataCells_true] at hcells ⊢
      rw [hcells, List.tail_cons, List.map_map]
      have : ∀ e ∈ row, (cellValue convert ∘ render) e = e := by
        intro e he
        obtain ⟨-, -, hne, hconv⟩ := hent row hrow e he
        simp only [Function.comp_apply, cellValue, hconv]
        rw [if_neg (by simpa [List.isEmpty_iff] using hne)]
        rfl
      rw [List.map_congr_left this, List.map_id']
    calc ((labels.zip table).map fun lr =>
          ((dataCells true colSep ∘ fun lr : List Char × List Int =>
            [colSep].intercalate (lr.1 :: lr.2.map render)) lr).map (cellValue convert))
        = (labels.zip table).map Prod.snd := by
          exact List.map_congr_left hmap
      _ = table := List.map_snd_zip labels table (le_of_eq hlen.symm)
  have hlabels : ((labels.zip table).map
        fun lr => [colSep].intercalate (lr.1 :: lr.2.map render)).map
          (rowLabel true colSep) = labels := by
    rw [List.map_map]
    have hmap : ∀ lr ∈ labels.zip table,
        (rowLabel true colSep ∘ fun lr : List Char × List Int =>
            [colSep].intercalate (lr.1 :: lr.2.map render)) lr = lr.1 := by
      rintro ⟨l, row⟩ hlr
      obtain ⟨hl, hrow⟩ := List.of_mem_zip hlr
      have hcells := hrow_splits (l, row) hlr
      simp only [Function.comp_apply, rowLabel_true] at hcells ⊢
      rw [hcells, List.headI_cons]
      exact (hlab l hl).2.2
    calc ((labels.zip table).map (rowLabel true colSep ∘ fun lr : List Char × List Int =>
            [colSep].intercalate (lr.1 :: lr.2.map render)))
        = (labels.zip table).map Prod.fst := List.map_congr_left hmap
      _ = labels := List.map_fst_zip labels table (le_of_eq hlen)
  have hfind : (List.range table.length).find?
      (fun i => decide ((table.getD i []).length < table.length)) = none := by
    rw [List.find?_eq_none]
    intro i hi
    have hi' := List.mem_range.mp hi
    simp only [decide_eq_true_eq, Nat.not_lt]
    rw [List.getD_eq_getElem?_getD, List.getElem?_eq_getElem hi', Option.getD_some]
    exact le_of_eq (hsq _ (List.getElem_mem hi')).symm
  rw [process_data, if_neg hsep]
  dsimp only
  rw [hsplit, htable, hlabels, hfind]

theorem process_data_serialize_roundtrip_witness :
    process_data (serialize intRender '\n' '\t' [[5]] [['a']]) true pyInt '\n' '\t'
      = .ok ([[5]], [['a']]) := by
  refine process_data_serialize_roundtrip intRender pyInt '\n' '\t' [[5]] [['a']]
    (by decide) (by decide) (by decide) ?_ ?_ ?_
  · decide
  · decide
  · decide

end PageRank
